import Mathlib

/-!
Verification development for the comment/string-literal extraction core of the
FOSSologyML repository (`rigel/pipeline/preprocessor/comment_extractor.py` and
`rigel/pipeline/preprocessor/preprocessor.py`), shallowly embedded in Lean.

Python strings are modelled as Lean `String` (a wrapper around `List Char`);
the handful of Python `str` operations the source uses are re-implemented
below over `List Char` so that all definitions reduce in the kernel.
Python integers occurring here are all non-negative (line numbers), so `Nat`
is used; the single subtraction in the source
(`next_comment.start_line - comment.end_line <= 1`) agrees with truncated
`Nat` subtraction because for naturals `a - b <= 1` over the integers and
`a - b <= 1` with truncated subtraction are both equivalent to `a <= b + 1`.
-/

namespace Rigel

/-! ## Python string primitives -/

/-- Python `str.strip()` (whitespace variant, over the ASCII whitespace the
inputs of this code base use). -/
def pyStrip (s : String) : String :=
  ⟨((s.data.dropWhile Char.isWhitespace).reverse.dropWhile Char.isWhitespace).reverse⟩

/-- Python `s.startswith(h)`. -/
def pyStartsWith (s h : String) : Bool := h.data.isPrefixOf s.data

/-- Python `s.endswith(f)`. -/
def pyEndsWith (s f : String) : Bool := f.data.isSuffixOf s.data

/-- Characters of `l` strictly before the first occurrence of `sep`
(all of `l` if `sep` does not occur).  `sep` is assumed non-empty, as in
every use in the source. -/
def beforeFirst (sep : List Char) : List Char → List Char
  | [] => []
  | c :: cs => if sep.isPrefixOf (c :: cs) then [] else c :: beforeFirst sep cs

/-- Characters of `l` after the first occurrence of `sep`, if any. -/
def afterFirst (sep : List Char) : List Char → Option (List Char)
  | [] => none
  | c :: cs =>
    if sep.isPrefixOf (c :: cs) then some (cs.drop (sep.length - 1)) else afterFirst sep cs

/-- Python `text.split(sep)[0]`, which (for the `rsplit` in the source:
`rsplit` without `maxsplit` splits at exactly the same places as `split`)
is also `text.rsplit(sep)[0]`: the text before the first occurrence of `sep`. -/
def pySplitGet0 (sep text : String) : String := ⟨beforeFirst sep.data text.data⟩

/-- Python `text.split(sep)[1]`: the text between the first occurrence of
`sep` and the next non-overlapping occurrence.  Every use in the source is
guarded by `text.startswith(sep)`, so the occurrence exists; the `""` fallback
models the otherwise-raised `IndexError` branch, which is unreachable there. -/
def pySplitGet1 (sep text : String) : String :=
  match afterFirst sep.data text.data with
  | some rest => ⟨beforeFirst sep.data rest⟩
  | none => ""

/-- Split a character list at every newline character. -/
def splitNl : List Char → List (List Char)
  | [] => [[]]
  | c :: cs =>
    if c = '\n' then [] :: splitNl cs
    else
      match splitNl cs with
      | [] => [[c]]
      | h :: t => (c :: h) :: t

/-- Python `str.splitlines()` restricted to `\n` line terminators (the only
terminator exercised by this code base): `""` gives `[]`, and a trailing
newline does not produce a trailing empty line. -/
def pySplitlines (s : String) : List String :=
  match s.data with
  | [] => []
  | _ =>
    let parts := splitNl s.data
    (if s.data.getLast? = some '\n' then parts.dropLast else parts).map (fun l => ⟨l⟩)

/-- Python `sep.join(parts)`. -/
def pyJoin (sep : String) : List String → String
  | [] => ""
  | [x] => x
  | x :: y :: rest => x ++ sep ++ pyJoin sep (y :: rest)

/-- Whether `pat` occurs as a contiguous run inside `hay` (used below to model
`re.search` on an alternation of literal words). -/
def containsSeq (pat : List Char) : List Char → Bool
  | [] => pat.isEmpty
  | c :: cs => pat.isPrefixOf (c :: cs) || containsSeq pat cs

/-! ## Data model: `Comment`, `StringLiteral`, parsed items -/

/-- Model of `Comment` from `comment_extractor.py`: a body of raw text lines plus the
1-based inclusive line span, and the `is_multiline` flag computed in
`__init__` (and forced to `true` by `append`). -/
structure Comment where
  body : List String
  start_line : Nat
  end_line : Nat
  is_multiline : Bool
deriving DecidableEq, Repr

/-- Constructor `Comment.__init__`: `is_multiline = not start_line == end_line`. -/
def Comment.init (body : List String) (start_line end_line : Nat) : Comment :=
  ⟨body, start_line, end_line, !(start_line == end_line)⟩

/-- Static method `Comment.parse(body)` with its default arguments `start_line = 0`,
`end_line = 0`: used only by the markup (tree-parser) path. -/
def Comment.parse (body : String) : Comment := Comment.init (pySplitlines body) 0 0

/-- Method `Comment.append`: merge another comment onto this one. -/
def Comment.append (c new_comment : Comment) : Comment :=
  ⟨c.body ++ new_comment.body, c.start_line, new_comment.end_line, true⟩

/-- Property `Comment.body_str`: the body lines joined by newlines; this is also
`str(comment)`. -/
def Comment.body_str (c : Comment) : String := pyJoin "\n" c.body

/-- Model of `StringLiteral` from `comment_extractor.py`.  The source annotates
`line_number` as `Union[int, list]`, but no call site in the repository ever
passes a list, so it is modelled as `Nat` (`0` is the default used by the
markup path). -/
structure StringLiteral where
  text : String
  line_number : Nat
deriving DecidableEq, Repr

/-- A parsed item: the generator in the source yields `Comment` and
`StringLiteral` objects. -/
inductive Item where
  | comment (c : Comment)
  | str (sl : StringLiteral)
deriving DecidableEq, Repr

/-- Property `item.last_line_number`: `end_line` for a comment, the line locator for a
string literal. -/
def Item.last_line_number : Item → Nat
  | .comment c => c.end_line
  | .str sl => sl.line_number

/-- Test `isinstance(item, Comment)`. -/
def Item.isComment : Item → Bool
  | .comment _ => true
  | .str _ => false

/-- Stringification `str(item)`: `body_str` for comments, the raw text for string literals. -/
def Item.toText : Item → String
  | .comment c => c.body_str
  | .str sl => sl.text

/-- The comments of a parsed sequence, in order (the `isinstance` partition in
`extract_comments_and_strings`). -/
def commentsOf (items : List Item) : List Comment :=
  items.filterMap (fun i => match i with | .comment c => some c | .str _ => none)

/-- The non-comment items of a parsed sequence, in order. -/
def stringsOf (items : List Item) : List Item := items.filter (fun i => !i.isComment)

/-! ## The quoted-string regular expression

The source builds, per quote character `q`, the pattern
`'{0}(.*(?<!\)){0}'.format(q)` — after Python string-literal unescaping this
is the regex  `q(.*(?<!\)))q`:  an opening quote, a *greedy* `.*`, a negative
lookbehind for a literal `')'` character (the `\\)` in the Python source is
backslash-escaping the parenthesis, not matching a backslash), and the closing
quote.  `re.findall` returns the capture group of every non-overlapping match,
scanning left to right; the greedy `.*` with backtracking means the closing
quote of a match is the *rightmost* later quote whose preceding character is
not `')'`. -/

/-- Find the rightmost valid closing quote: returns `(x, rest)` such that the
scanned list is `x ++ q :: rest`, the character preceding that `q` (which is
`prev` when `x = []`) is not `')'`, and `x` is as long as possible. -/
def findLastClose (q : Char) : Char → List Char → Option (List Char × List Char)
  | _, [] => none
  | prev, c :: cs =>
    match findLastClose q c cs with
    | some (x, rest) => some (c :: x, rest)
    | none => if c = q && prev ≠ ')' then some ([], cs) else none

/-- Fuel-indexed scan for `re.findall` of the pattern above; the fuel bounds
the recursion after a match consumes part of the list. -/
def findallAux (q : Char) : Nat → List Char → List String
  | _, [] => []
  | 0, _ :: _ => []
  | fuel + 1, c :: cs =>
    if c = q then
      match findLastClose q c cs with
      | some (x, rest) => (⟨x⟩ : String) :: findallAux q fuel rest
      | none => findallAux q fuel cs
    else findallAux q fuel cs

/-- All capture groups of the non-overlapping, greedy, left-to-right matches
of `q(.*(?<!\)))q` in `l` — the model of
`re.findall('{0}(.*(?<!\\))){0}'.format(q), text, re.I | re.M)`. -/
def findallStrings (q : Char) (l : List Char) : List String := findallAux q l.length l

/-! ## Language profiles and the line lexer -/

/-- A delimiter profile: the class attributes `SINGLE_LINE_COMMENT`
(header/footer pair; the footer is `None` for every language),
`MULTI_LINE_COMMENT` (header, interior-line middle, footer — or `None` when
the language has no block comments) and `STRING` (quote characters). -/
structure Profile where
  slcHeader : String
  slcFooter : Option String
  mlc : Option (String × Option String × String)
  strings : List Char
deriving DecidableEq, Repr

/-- Profile of `BaseCodeLanguage` (the `CodeLanguage.STANDARD` profile used for C, C++
and Java). -/
def standardProfile : Profile :=
  ⟨"//", none, some ("/*", none, "*/"), [Char.ofNat 34]⟩

/-- Profile of `PHPCodeLanguage`: PHPDoc-style block comments with `*` interior lines,
and both quote characters. -/
def phpProfile : Profile :=
  ⟨"//", none, some ("/**", some "*", "*/"), [Char.ofNat 34, Char.ofNat 39]⟩

/-- Profile of `PythonCodeLanguage`. -/
def pythonProfile : Profile :=
  ⟨"#", none, some ("\"\"\"", none, "\"\"\""), [Char.ofNat 34, Char.ofNat 39]⟩

/-- Profile of `ShellCodeLanguage`: no block comments. -/
def shellProfile : Profile :=
  ⟨"#", none, none, [Char.ofNat 34, Char.ofNat 39]⟩

/-- The multi-line-comment header, defaulting to `""` when the profile has no
block comments (never consulted in that case). -/
def mlcHeader (p : Profile) : String :=
  match p.mlc with
  | some (h, _, _) => h
  | none => ""

/-- The interior-line middle token, with Python falsiness (`None` and `""`
coincide) represented by `""`. -/
def mlcMiddle (p : Profile) : String :=
  match p.mlc with
  | some (_, m, _) => m.getD ""
  | none => ""

/-- The multi-line-comment footer, defaulting to `""`. -/
def mlcFooter (p : Profile) : String :=
  match p.mlc with
  | some (_, _, f) => f
  | none => ""

/-- Lexer state: the items yielded so far and the
`multiline_comment_buffer` of `(text, line_number)` pairs. -/
structure LexState where
  out : List Item
  buf : List (String × Nat)
deriving DecidableEq, Repr

/-- The initial lexer state. -/
def initState : LexState := ⟨[], []⟩

/-- Predicate `is_currently_multi_line_comment()`: `has_multiline and bool(buffer)`. -/
def is_currently_multi_line_comment (p : Profile) (buf : List (String × Nat)) : Bool :=
  p.mlc.isSome && !buf.isEmpty

/-- Predicate `is_single_line_comment(text)` (the `not slc_footer` conjunct uses Python
truthiness; the footer is `None` for every profile). -/
def is_single_line_comment (p : Profile) (buf : List (String × Nat)) (text : String) : Bool :=
  !is_currently_multi_line_comment p buf && pyStartsWith text p.slcHeader
    && ((p.slcFooter.getD "").data.isEmpty)

/-- The source predicate for a block comment written on a single physical
line (named `is_single_line_comment_multiline_` + `notation` there; that
exact name is not usable here). -/
def is_single_line_comment_block_form (p : Profile) (buf : List (String × Nat))
    (text : String) : Bool :=
  match p.mlc with
  | none => false
  | some (h, _, f) =>
    !is_currently_multi_line_comment p buf && pyStartsWith text h && pyEndsWith text f
      && (h ++ f).length ≤ text.length

/-- Predicate `is_multi_line_comment_start(text)`. -/
def is_multi_line_comment_start (p : Profile) (buf : List (String × Nat))
    (text : String) : Bool :=
  match p.mlc with
  | none => false
  | some (h, _, _) => !is_currently_multi_line_comment p buf && pyStartsWith text h

/-- Predicate `is_multi_line_comment_midst(text)`: note the final conjunct
`(not mlc_middle or text.startswith(mlc_middle))`. -/
def is_multi_line_comment_midst (p : Profile) (buf : List (String × Nat))
    (text : String) : Bool :=
  match p.mlc with
  | none => false
  | some (h, m, f) =>
    is_currently_multi_line_comment p buf && !pyStartsWith text h && !pyEndsWith text f
      && ((m.getD "").data.isEmpty || pyStartsWith text (m.getD ""))

/-- Predicate `is_multi_line_comment_end(text)`. -/
def is_multi_line_comment_end (p : Profile) (buf : List (String × Nat))
    (text : String) : Bool :=
  match p.mlc with
  | none => false
  | some (_, _, f) => is_currently_multi_line_comment p buf && pyEndsWith text f

/-- The interior-line text pushed in the midst branch:
`comment_text = text; if mlc_middle: comment_text = text.split(mlc_middle)[1].strip()`. -/
def midstText (p : Profile) (text : String) : String :=
  if (mlcMiddle p).data.isEmpty then text else pyStrip (pySplitGet1 (mlcMiddle p) text)

/-- The `Comment` flushed at a block-comment end:
`zip(*multiline_comment_buffer)` then
`Comment(list(comment_texts), line_numbers[0], line_numbers[-1])`.
The buffer is non-empty at every flush, so the `0` defaults are inert. -/
def flushComment (fullBuf : List (String × Nat)) : Comment :=
  Comment.init (fullBuf.map Prod.fst) ((fullBuf.map Prod.snd).headD 0)
    ((fullBuf.map Prod.snd).getLastD 0)

/-- The comment-classification part of one loop iteration of
`BaseCodeLanguage.parse` for a non-blank stripped line `text`.  The Python
`if/elif` chain nests the last three branches under `elif has_multiline:`;
here every `is_multi_line_*` predicate already requires `MULTI_LINE_COMMENT`
to be present (it matches on `p.mlc`), so the flattened chain below takes
exactly the same branch on every input. -/
def stepComment (p : Profile) (s : LexState) (line_number : Nat) (text : String) : LexState :=
  if is_single_line_comment p s.buf text then
    { s with out := s.out ++
        [Item.comment (Comment.init [pyStrip (pySplitGet1 p.slcHeader text)]
          line_number line_number)] }
  else if is_single_line_comment_block_form p s.buf text then
    { s with out := s.out ++
        [Item.comment (Comment.init
          [pyStrip (pySplitGet0 (mlcFooter p) (pySplitGet1 (mlcHeader p) text))]
          line_number line_number)] }
  else if is_multi_line_comment_start p s.buf text then
    { s with buf := s.buf ++ [(pyStrip (pySplitGet1 (mlcHeader p) text), line_number)] }
  else if is_multi_line_comment_midst p s.buf text then
    { s with buf := s.buf ++ [(midstText p text, line_number)] }
  else if is_multi_line_comment_end p s.buf text then
    { out := s.out ++
        [Item.comment (flushComment
          (s.buf ++ [(pyStrip (pySplitGet0 (mlcFooter p) text), line_number)]))],
      buf := [] }
  else s

/-- The string literals yielded for one stripped line: for each configured
quote character in order, one `StringLiteral` per regex match. -/
def stringsOfLine (p : Profile) (text : String) (line_number : Nat) : List Item :=
  p.strings.flatMap
    (fun q => (findallStrings q text.data).map (fun x => Item.str ⟨x, line_number⟩))

/-- One full loop iteration of `BaseCodeLanguage.parse`: strip the line, skip
it when blank, otherwise run the comment chain and then (independently of the
comment state, when requested) the string scan. -/
def step (p : Profile) (include_strings : Bool) (s : LexState) (line_number : Nat)
    (raw : String) : LexState :=
  let text := pyStrip raw
  if text.data.isEmpty then s
  else
    let s1 := stepComment p s line_number text
    if include_strings then { s1 with out := s1.out ++ stringsOfLine p text line_number }
    else s1

/-- Python `enumerate(lines, start=n)`. -/
def numberFrom : Nat → List String → List (Nat × String)
  | _, [] => []
  | n, l :: ls => (n, l) :: numberFrom (n + 1) ls

/-- Fold the lexer over a numbered line sequence. -/
def processLines (p : Profile) (include_strings : Bool) (s : LexState)
    (lines : List (Nat × String)) : LexState :=
  lines.foldl (fun st pr => step p include_strings st pr.1 pr.2) s

/-- Model of `BaseCodeLanguage.parse(content, include_strings)` as a list: the items
yielded over `enumerate([l.strip() for l in content.splitlines()], start=1)`.
A partially filled `multiline_comment_buffer` left over at end of input is
dropped, exactly as the generator in the source simply returns. -/
def baseParse (p : Profile) (content : String) (include_strings : Bool) : List Item :=
  (processLines p include_strings initState (numberFrom 1 (pySplitlines content))).out

/-! ## Markup parse, merge pass, sort, extractor -/

/-- The input documents seen by the extractor.  `content` is the raw text
handed to the line lexer.  For the markup languages the source delegates to
an external tree parser (`BeautifulSoup(content, "lxml")`); that library is
outside this repository, so its output on the same document — the texts of
the comment nodes and of the non-empty non-comment text nodes, in document
order — is carried here as the `soup` fields. -/
structure Doc where
  content : String
  soupComments : List String
  soupStrings : List String

/-- Model of `SGMLCodeLanguage.parse` (also `HTMLCodeLanguage` and `XMLCodeLanguage`,
which subclass it without overriding anything): every comment node becomes
`Comment.parse(text)` — line numbers defaulted to `0` — and every collected
text node becomes `StringLiteral(text)` with the default line number `0`. -/
def sgmlParse (d : Doc) (include_strings : Bool) : List Item :=
  let comments := d.soupComments.map (fun b => Item.comment (Comment.parse b))
  let strings := d.soupStrings.map (fun t => Item.str ⟨t, 0⟩)
  if include_strings then comments ++ strings else comments

/-- The loop body of `do_collapse_singleline_comments` with `comment` the
current accumulator.  The merge test `next_comment.start_line -
comment.end_line <= 1` is Python integer subtraction of naturals, which
coincides with the truncated `Nat` subtraction used here. -/
def collapseGo (comment : Comment) : List Comment → List Comment
  | [] => [comment]
  | next_comment :: rest =>
    if next_comment.start_line - comment.end_line ≤ 1 then
      collapseGo (comment.append next_comment) rest
    else comment :: collapseGo next_comment rest

/-- Function `do_collapse_singleline_comments`. -/
def do_collapse_singleline_comments : List Comment → List Comment
  | [] => []
  | c :: rest => collapseGo c rest

/-- The separation relation between consecutive outputs of the merge pass. -/
def commentGap (a b : Comment) : Prop := ¬b.start_line - a.end_line ≤ 1

/-- Stable insertion of an item into a list sorted ascending by
`last_line_number`: the item goes after every element whose key is not
greater. -/
def insertByLastLine (x : Item) : List Item → List Item
  | [] => [x]
  | y :: ys =>
    if x.last_line_number < y.last_line_number then x :: y :: ys
    else y :: insertByLastLine x ys

/-- Model of `parsed_content.sort(key=lambda x: x.last_line_number)`: Python's sort is
a stable ascending sort by the key, and a stable sort by a key is extensionally
unique, so this insertion sort computes exactly the same list. -/
def pySortByLastLine (l : List Item) : List Item :=
  l.foldl (fun acc x => insertByLastLine x acc) []

/-- The comparison underlying the sort key. -/
def keyLe (a b : Item) : Prop := a.last_line_number ≤ b.last_line_number

/-- The collapse-enabled tail of `extract_comments_and_strings`: partition
into strings and comments preserving order, merge the comments, recombine as
`strings + comments`, and stable-sort by `last_line_number`. -/
def recombineAndSort (parsed : List Item) : List Item :=
  pySortByLastLine
    (stringsOf parsed ++ (do_collapse_singleline_comments (commentsOf parsed)).map Item.comment)

/-! ## MIME registry, factory, entry points -/

/-- The `MimeType` string constants from `rigel/pipeline/enums.py`.  Note
that `JAVA` shares `C`'s value and `SGML` shares `HTML`'s. -/
def MimeType.C : String := "text/x-c"

def MimeType.C_PLUS_PLUS : String := "text/x-c++"

def MimeType.JAVA : String := "text/x-c"

def MimeType.HTML : String := "text/html"

def MimeType.XML : String := "text/xml"

def MimeType.SGML : String := "text/html"

def MimeType.PYTHON : String := "text/x-python"

def MimeType.SHELL : String := "text/x-shellscript"

def MimeType.PHP : String := "text/x-php"

def MimeType.UNKNOWN : String := "unknown filetype"

/-- The `CodeLanguage` name constants. -/
def CodeLanguage.HTML : String := "html"

def CodeLanguage.PYTHON : String := "python"

def CodeLanguage.PHP : String := "php"

def CodeLanguage.XML : String := "xml"

def CodeLanguage.SGML : String := "sgml"

def CodeLanguage.STANDARD : String := "standard"

def CodeLanguage.SHELL : String := "shell"

/-- The language classes `CodeLanguage.factory` can return.  `html` and
`xml` subclass the SGML class without overriding anything, so all three
dispatch to `sgmlParse`. -/
inductive Lang where
  | standard
  | python
  | php
  | shell
  | sgml
  | html
  | xml
deriving DecidableEq, Repr

/-- Model of `CodeLanguage.factory`: the `if/elif` chain from the source, including
its implicit `None` fall-through for unknown names (the trailing duplicate
`PHP` test in the source is unreachable and behaviourally identical). -/
def CodeLanguage.factory (code_name : String) : Option Lang :=
  if code_name = CodeLanguage.PYTHON then some Lang.python
  else if code_name = CodeLanguage.PHP then some Lang.php
  else if code_name = CodeLanguage.SGML then some Lang.sgml
  else if code_name = CodeLanguage.HTML then some Lang.html
  else if code_name = CodeLanguage.XML then some Lang.xml
  else if code_name = CodeLanguage.STANDARD then some Lang.standard
  else if code_name = CodeLanguage.SHELL then some Lang.shell
  else none

/-- Dispatch `lang.parse`: delimiter lexer for the four delimiter profiles, tree-parser
delegation for the three markup classes. -/
def Lang.parse (lang : Lang) (d : Doc) (include_strings : Bool) : List Item :=
  match lang with
  | .standard => baseParse standardProfile d.content include_strings
  | .python => baseParse pythonProfile d.content include_strings
  | .php => baseParse phpProfile d.content include_strings
  | .shell => baseParse shellProfile d.content include_strings
  | .sgml => sgmlParse d include_strings
  | .html => sgmlParse d include_strings
  | .xml => sgmlParse d include_strings

/-- Registry `Parser.SUPPORTED_FILE_TYPES` as the literal key/value sequence of the
dict display in the source.  Because `JAVA == C` and `SGML == HTML` as
strings, the Python dict keeps 7 keys, with the later duplicate entry's value
winning (`text/html` maps to `'sgml'`). -/
def SUPPORTED_FILE_TYPES : List (String × String) :=
  [(MimeType.C, CodeLanguage.STANDARD),
   (MimeType.C_PLUS_PLUS, CodeLanguage.STANDARD),
   (MimeType.JAVA, CodeLanguage.STANDARD),
   (MimeType.HTML, CodeLanguage.HTML),
   (MimeType.XML, CodeLanguage.XML),
   (MimeType.SGML, CodeLanguage.SGML),
   (MimeType.PYTHON, CodeLanguage.PYTHON),
   (MimeType.SHELL, CodeLanguage.SHELL),
   (MimeType.PHP, CodeLanguage.PHP)]

/-- Lookup in a dict built from a literal list of key/value pairs: a later
binding of the same key overwrites an earlier one. -/
def dictGet (l : List (String × String)) (k : String) : Option String :=
  l.foldl (fun acc p => if p.1 = k then some p.2 else acc) none

/-- The one error the strict entry point raises. -/
inductive ExtractorError where
  | codeLanguageUnsupported
deriving DecidableEq, Repr

deriving instance DecidableEq for Except

/-- Model of `Parser.__init__` (the constructor run by the strict entry point
`extract`): scan the registry keys for one equal to `type`; if none matches,
raise `CodeLanguageUnsupported`; otherwise keep `factory` of the mapped
language name. -/
def parserInit (type : String) : Except ExtractorError (Option Lang) :=
  match dictGet SUPPORTED_FILE_TYPES type with
  | some name => Except.ok (CodeLanguage.factory name)
  | none => Except.error ExtractorError.codeLanguageUnsupported

/-- Model of `extract_comments_and_strings(content, type, include_strings,
collapse_singleline_comments)`: the lenient entry point.  A
`CodeLanguageUnsupported` from the parser constructor is caught, logged and
turned into `[]`.  (The `Except.ok none` case would be Python setting
`code_language` to a `None` it then calls; `registry_factory_total` below
proves it unreachable for every registry entry.) -/
def extract_comments_and_strings (d : Doc) (type : String) (include_strings : Bool)
    (collapse_singleline_comments : Bool) : List String :=
  match parserInit type with
  | Except.error ExtractorError.codeLanguageUnsupported => []
  | Except.ok none => []
  | Except.ok (some lang) =>
    let parsed := Lang.parse lang d include_strings
    let parsed := if collapse_singleline_comments then recombineAndSort parsed else parsed
    parsed.map Item.toText

/-! ## RelevanceFilter (`preprocessor.py`) -/

/-- Model of `LRW_PATTERN.search(s)`:  `re.compile(r'licen|copyright|\(c\)|public
domain', re.IGNORECASE)` searches for any of four literal words, ignoring
case; on this ASCII pattern that is substring containment in the lowercased
text. -/
def LRW_search (s : String) : Bool :=
  let t := s.data.map Char.toLower
  containsSeq "licen".data t || containsSeq "copyright".data t
    || containsSeq "(c)".data t || containsSeq "public domain".data t

/-- Model of `Preprocessor.extract_license_related_text`: concatenate, in order, every
literal the pattern matches, each followed by a newline. -/
def extract_license_related_text (literals : List String) : String :=
  literals.foldl (fun text literal => if LRW_search literal then text ++ literal ++ "\n" else text)
    ""

/-- Model of `Preprocessor.extract_no_license_related_text`: the complementary
accumulator. -/
def extract_no_license_related_text (literals : List String) : String :=
  literals.foldl
    (fun text literal => if LRW_search literal then text else text ++ literal ++ "\n") ""

/-! ## Auxiliary definitions used by the statements below -/

/-- Concatenation of a list of strings (no separator). -/
def concatAll : List String → String
  | [] => ""
  | x :: xs => x ++ concatAll xs

/-- The registry's closed set of MIME types as the claim enumerates it:
C, C++, Java, HTML, XML, SGML, Python, POSIX shell, PHP.  As strings it has
seven distinct members, since `JAVA == C` and `SGML == HTML`. -/
def supportedMimeTypes : List String :=
  [MimeType.C, MimeType.C_PLUS_PLUS, MimeType.JAVA, MimeType.HTML, MimeType.XML,
   MimeType.SGML, MimeType.PYTHON, MimeType.SHELL, MimeType.PHP]

/-- The per-comment invariant the lexer really maintains: a 1-based span with
`start_line <= end_line`, and a body no longer than the span (blank interior
lines and interior lines rejected by the midst predicate are skipped, so the
body can be strictly shorter). -/
def goodComment (c : Comment) : Prop :=
  1 ≤ c.start_line ∧ c.start_line ≤ c.end_line ∧
    c.body.length ≤ c.end_line - c.start_line + 1

/-- Invariant of the multiline buffer when the next line to be lexed has
number `n`: the first buffered entry has a 1-based line number, and the
buffered entries fit strictly below `n`. -/
def bufOk (n : Nat) : List (String × Nat) → Prop
  | [] => True
  | e :: rest => 1 ≤ e.2 ∧ e.2 + rest.length + 1 ≤ n

/-! ## Spec-modelled non-greedy matcher (for comparison only)

Modelled from the spec: §4.2 describes the quoted-string scan as "one regex
per configured quote character, non-greedy, not spanning escaped quotes".
Under a non-greedy reading each match runs from an opening quote to the very
next quote, i.e. the matches are the complete odd-indexed segments of the
split at the quote character.  (Escaped quotes play no role on the inputs
this definition is compared at.) -/

/-- Split a character list at every occurrence of the single character `q`. -/
def splitChar (q : Char) : List Char → List (List Char)
  | [] => [[]]
  | c :: cs =>
    if c = q then [] :: splitChar q cs
    else
      match splitChar q cs with
      | [] => [[c]]
      | h :: t => (c :: h) :: t

/-- The complete odd-indexed segments: segment `2k+1` lies between the
`2k+1`-st and `2k+2`-nd quote, so it is a match only when a further segment
follows. -/
def oddSegs : List (List Char) → List (List Char)
  | _ :: b :: rest =>
    match rest with
    | [] => []
    | _ :: _ => b :: oddSegs rest
  | _ => []

/-- Modelled from the spec: the matches of a non-greedy quoted-string pattern
`q(.*?)q` over `l`.  See the section comment above. -/
def specNonGreedyMatches (q : Char) (l : List Char) : List String :=
  (oddSegs (splitChar q l)).map (fun x => (⟨x⟩ : String))

/-! ## General lemmas about the merge pass -/

theorem collapseGo_cons_of_le (comment next_comment : Comment) (rest : List Comment)
    (h : next_comment.start_line - comment.end_line ≤ 1) :
    collapseGo comment (next_comment :: rest) =
      collapseGo (comment.append next_comment) rest := by
  simp [collapseGo, h]

theorem collapseGo_cons_of_gt (comment next_comment : Comment) (rest : List Comment)
    (h : ¬next_comment.start_line - comment.end_line ≤ 1) :
    collapseGo comment (next_comment :: rest) =
      comment :: collapseGo next_comment rest := by
  simp [collapseGo, h]

/-- The first element of `collapseGo comment l` always starts where the
accumulator starts. -/
theorem collapseGo_head : ∀ (l : List Comment) (comment : Comment),
    ∃ d t, collapseGo comment l = d :: t ∧ d.start_line = comment.start_line := by
  intro l
  induction l with
  | nil => exact fun c => ⟨c, [], rfl, rfl⟩
  | cons n rest ih =>
    intro c
    by_cases h : n.start_line - c.end_line ≤ 1
    · rw [collapseGo_cons_of_le c n rest h]
      obtain ⟨d, t, he, hs⟩ := ih (c.append n)
      exact ⟨d, t, he, hs⟩
    · rw [collapseGo_cons_of_gt c n rest h]
      exact ⟨c, collapseGo n rest, rfl, rfl⟩

/-- Consecutive outputs of the merge loop are separated by more than one
line. -/
theorem collapseGo_chain : ∀ (l : List Comment) (comment : Comment),
    List.Chain' commentGap (collapseGo comment l) := by
  intro l
  induction l with
  | nil => exact fun c => List.chain'_singleton c
  | cons n rest ih =>
    intro c
    by_cases h : n.start_line - c.end_line ≤ 1
    · rw [collapseGo_cons_of_le c n rest h]
      exact ih (c.append n)
    · rw [collapseGo_cons_of_gt c n rest h]
      refine List.chain'_cons'.mpr ⟨?_, ih n⟩
      intro b hb
      obtain ⟨d, t, he, hs⟩ := collapseGo_head rest n
      rw [he] at hb
      simp only [List.head?_cons, Option.mem_def, Option.some.injEq] at hb
      subst hb
      simpa [commentGap, hs] using h

/-- On a sequence whose consecutive members are already separated by more
than one line, the merge loop is the identity. -/
theorem collapseGo_of_chain : ∀ (l : List Comment) (comment : Comment),
    List.Chain' commentGap (comment :: l) → collapseGo comment l = comment :: l := by
  intro l
  induction l with
  | nil => exact fun c _ => rfl
  | cons n rest ih =>
    intro c hch
    rw [List.chain'_cons] at hch
    rw [collapseGo_cons_of_gt c n rest hch.1, ih n hch.2]

/-! ## Lemmas about the stable sort -/

theorem insertByLastLine_perm (x : Item) :
    ∀ l : List Item, (insertByLastLine x l).Perm (x :: l) := by
  intro l
  induction l with
  | nil => simp [insertByLastLine]
  | cons y ys ih =>
    by_cases h : x.last_line_number < y.last_line_number
    · simp [insertByLastLine, h]
    · simp only [insertByLastLine, h, if_false]
      exact (ih.cons y).trans (List.Perm.swap x y ys)

theorem insertByLastLine_sorted (x : Item) :
    ∀ l : List Item, List.Sorted keyLe l → List.Sorted keyLe (insertByLastLine x l) := by
  intro l
  induction l with
  | nil => intro _; simp [insertByLastLine, List.sorted_singleton]
  | cons y ys ih =>
    intro hs
    rw [List.sorted_cons] at hs
    obtain ⟨hy, hys⟩ := hs
    by_cases h : x.last_line_number < y.last_line_number
    · simp only [insertByLastLine, h, if_true]
      rw [List.sorted_cons]
      refine ⟨?_, List.sorted_cons.mpr ⟨hy, hys⟩⟩
      intro b hb
      rcases List.mem_cons.mp hb with rfl | hb
      · exact Nat.le_of_lt h
      · exact Nat.le_trans (Nat.le_of_lt h) (hy b hb)
    · simp only [insertByLastLine, h, if_false]
      rw [List.sorted_cons]
      refine ⟨?_, ih hys⟩
      intro b hb
      rcases List.mem_cons.mp ((insertByLastLine_perm x ys).mem_iff.mp hb) with rfl | hb
      · exact Nat.le_of_not_lt h
      · exact hy b hb

theorem insertByLastLine_filter (x : Item) (k : Nat) :
    ∀ l : List Item, List.Sorted keyLe l →
      (insertByLastLine x l).filter (fun i => i.last_line_number == k) =
        l.filter (fun i => i.last_line_number == k) ++
          (if x.last_line_number == k then [x] else []) := by
  intro l
  induction l with
  | nil =>
    intro _
    cases hxk : x.last_line_number == k <;> simp [insertByLastLine, List.filter, hxk]
  | cons y ys ih =>
    intro hs
    rw [List.sorted_cons] at hs
    obtain ⟨hy, hys⟩ := hs
    by_cases h : x.last_line_number < y.last_line_number
    · simp only [insertByLastLine, h, if_true]
      by_cases hk : (x.last_line_number == k) = true
      · have hkk : x.last_line_number = k := eq_of_beq hk
        have hnil : (y :: ys).filter (fun i => i.last_line_number == k) = [] := by
          rw [List.filter_eq_nil_iff]
          intro a ha
          have hya : y.last_line_number ≤ a.last_line_number := by
            rcases List.mem_cons.mp ha with rfl | ha
            · exact Nat.le_refl _
            · exact hy a ha
          simp only [beq_iff_eq]
          omega
        rw [List.filter_cons_of_pos (by simpa using hk), hnil]
        simp [hk]
      · rw [List.filter_cons_of_neg (by simpa using hk)]
        simp [hk]
    · simp only [insertByLastLine, h, if_false]
      by_cases hyk : (y.last_line_number == k) = true
      · rw [List.filter_cons_of_pos (by simpa using hyk),
          List.filter_cons_of_pos (by simpa using hyk), ih hys, List.cons_append]
      · rw [List.filter_cons_of_neg (by simpa using hyk),
          List.filter_cons_of_neg (by simpa using hyk), ih hys]

theorem pySort_aux : ∀ (l acc : List Item), List.Sorted keyLe acc →
    List.Sorted keyLe (l.foldl (fun a x => insertByLastLine x a) acc) ∧
    ∀ k : Nat, (l.foldl (fun a x => insertByLastLine x a) acc).filter
        (fun i => i.last_line_number == k) =
      acc.filter (fun i => i.last_line_number == k) ++
        l.filter (fun i => i.last_line_number == k) := by
  intro l
  induction l with
  | nil => intro acc hacc; exact ⟨hacc, fun k => by simp⟩
  | cons x xs ih =>
    intro acc hacc
    rw [List.foldl_cons]
    obtain ⟨hsorted, hfil⟩ := ih (insertByLastLine x acc) (insertByLastLine_sorted x acc hacc)
    refine ⟨hsorted, fun k => ?_⟩
    rw [hfil k, insertByLastLine_filter x k acc hacc]
    by_cases hk : (x.last_line_number == k) = true
    · rw [List.filter_cons_of_pos (by simpa using hk)]
      simp [hk]
    · rw [List.filter_cons_of_neg (by simpa using hk)]
      simp [hk]

theorem pySort_perm_aux : ∀ (l acc : List Item),
    (l.foldl (fun a x => insertByLastLine x a) acc).Perm (acc ++ l) := by
  intro l
  induction l with
  | nil => intro acc; simp
  | cons x xs ih =>
    intro acc
    rw [List.foldl_cons]
    refine (ih (insertByLastLine x acc)).trans ?_
    refine (((insertByLastLine_perm x acc).append_right xs).trans ?_)
    exact List.perm_middle.symm

theorem pySortByLastLine_perm (l : List Item) : (pySortByLastLine l).Perm l := by
  simpa using pySort_perm_aux l []

/-! ## Claims about the merge pass (C3, C4) -/

/-- C3: the comment merger absorbs a subsequent `Comment` into the current
accumulator exactly when `next.start_line - current.end_line <= 1` (appending
its body lines and setting the accumulator's `end_line` to `next.end_line`),
and otherwise flushes the accumulator; for the C-like profile, `// a` on
line 1 and `// b` on line 2 merge into one `Comment` with body `["a","b"]`
spanning lines 1–2, while `// a` on line 1 and `// b` on line 3 stay two
distinct `Comment`s. -/
theorem merge_absorbs_iff_gap_le_one :
    (∀ (comment next_comment : Comment) (rest : List Comment),
      next_comment.start_line - comment.end_line ≤ 1 →
      collapseGo comment (next_comment :: rest) =
        collapseGo (comment.append next_comment) rest) ∧
    (∀ (comment next_comment : Comment) (rest : List Comment),
      ¬next_comment.start_line - comment.end_line ≤ 1 →
      collapseGo comment (next_comment :: rest) =
        comment :: collapseGo next_comment rest) ∧
    (∀ comment next_comment : Comment,
      comment.append next_comment =
        ⟨comment.body ++ next_comment.body, comment.start_line,
          next_comment.end_line, true⟩) ∧
    do_collapse_singleline_comments
        (commentsOf (baseParse standardProfile "// a\n// b" false)) =
      [⟨["a", "b"], 1, 2, true⟩] ∧
    do_collapse_singleline_comments
        (commentsOf (baseParse standardProfile "// a\n\n// b" false)) =
      [⟨["a"], 1, 1, false⟩, ⟨["b"], 3, 3, false⟩] :=
  ⟨collapseGo_cons_of_le, collapseGo_cons_of_gt, fun _ _ => rfl, by decide, by decide⟩

/-- Witness for C3: the two conditional merge equations instantiated at the
comments produced from lines 1/2 and 1/3. -/
theorem merge_absorbs_iff_gap_le_one_witness :
    ((2 : Nat) - 1 ≤ 1 ∧
      collapseGo ⟨["a"], 1, 1, false⟩ [⟨["b"], 2, 2, false⟩] =
        collapseGo (Comment.append ⟨["a"], 1, 1, false⟩ ⟨["b"], 2, 2, false⟩) []) ∧
    (¬(3 : Nat) - 1 ≤ 1 ∧
      collapseGo ⟨["a"], 1, 1, false⟩ [⟨["b"], 3, 3, false⟩] =
        (⟨["a"], 1, 1, false⟩ : Comment) :: collapseGo ⟨["b"], 3, 3, false⟩ []) :=
  ⟨⟨by decide,
    merge_absorbs_iff_gap_le_one.1 ⟨["a"], 1, 1, false⟩ ⟨["b"], 2, 2, false⟩ [] (by decide)⟩,
   ⟨by decide,
    merge_absorbs_iff_gap_le_one.2.1 ⟨["a"], 1, 1, false⟩ ⟨["b"], 3, 3, false⟩ [] (by decide)⟩⟩

/-- C4: the merge pass is idempotent — applied to its own output it changes
nothing, because consecutive output comments are always more than one line
apart. -/
theorem merge_idempotent : ∀ X : List Comment,
    do_collapse_singleline_comments (do_collapse_singleline_comments X) =
      do_collapse_singleline_comments X := by
  intro X
  cases X with
  | nil => rfl
  | cons c rest =>
    show do_collapse_singleline_comments (collapseGo c rest) = collapseGo c rest
    obtain ⟨d, t, he, _⟩ := collapseGo_head rest c
    have hch := collapseGo_chain rest c
    rw [he] at hch ⊢
    exact collapseGo_of_chain t d hch

/-! ## Claims about recombination and sorting (C5) -/

/-- C5 counterexample: on the single line `// x "s"` the lexer discovers the
`Comment` before the `StringLiteral` (both with `last_line_number` 1), but
`extract_comments_and_strings` recombines as strings-then-comments before the
stable sort, so the returned strings put the string literal first — the tie
does not keep the lexer's discovery order, refuting the claim as stated. -/
theorem sort_tie_counterexample :
    baseParse standardProfile "// x \"s\"" true =
      [Item.comment ⟨["x \"s\""], 1, 1, false⟩, Item.str ⟨"s", 1⟩] ∧
    extract_comments_and_strings ⟨"// x \"s\"", [], []⟩ MimeType.C true true =
      ["s", "x \"s\""] ∧
    (["s", "x \"s\""] : List String) ≠ ["x \"s\"", "s"] :=
  ⟨by decide, by decide, by decide⟩

/-- C5 amended: with collapsing enabled the merged `Comment`s and the
`StringLiteral`s are recombined as all strings followed by all merged
comments, and that recombined sequence is stably sorted ascending by
`last_line_number` — items with equal `last_line_number` keep their relative
order in the *recombined* sequence (hence a string literal precedes a comment
at a tie, regardless of discovery order), as witnessed by the stability
property below (the sublist of any fixed key is preserved) and the concrete
tie example. -/
theorem sort_stable_by_last_line :
    (∀ parsed : List Item,
      List.Sorted keyLe (recombineAndSort parsed) ∧
      ∀ k : Nat,
        (recombineAndSort parsed).filter (fun i => i.last_line_number == k) =
          (stringsOf parsed ++
            (do_collapse_singleline_comments (commentsOf parsed)).map Item.comment).filter
            (fun i => i.last_line_number == k)) ∧
    extract_comments_and_strings ⟨"// x \"s\"", [], []⟩ MimeType.C true true =
      ["s", "x \"s\""] := by
  refine ⟨fun parsed => ?_, by decide⟩
  obtain ⟨hs, hf⟩ := pySort_aux
    (stringsOf parsed ++
      (do_collapse_singleline_comments (commentsOf parsed)).map Item.comment)
    [] List.sorted_nil
  refine ⟨hs, fun k => ?_⟩
  have h2 := hf k
  simp only [List.filter_nil, List.nil_append] at h2
  exact h2

/-! ## Lemmas about the registry lookup -/

theorem foldl_dictGet_mem : ∀ (l : List (String × String)) (k : String) (acc : Option String),
    l.foldl (fun acc p => if p.1 = k then some p.2 else acc) acc ≠ none →
    acc ≠ none ∨ ∃ p ∈ l, p.1 = k := by
  intro l k
  induction l with
  | nil => exact fun acc h => Or.inl h
  | cons e es ih =>
    intro acc h
    rw [List.foldl_cons] at h
    rcases ih _ h with h1 | h2
    · by_cases he : e.1 = k
      · exact Or.inr ⟨e, List.mem_cons_self e es, he⟩
      · rw [if_neg he] at h1
        exact Or.inl h1
    · exact Or.inr (h2.imp fun p hp => ⟨List.mem_cons_of_mem e hp.1, hp.2⟩)

theorem foldl_dictGet_value : ∀ (l : List (String × String)) (k : String) (acc : Option String)
    (v : String), l.foldl (fun acc p => if p.1 = k then some p.2 else acc) acc = some v →
    acc = some v ∨ ∃ p ∈ l, p.2 = v := by
  intro l k
  induction l with
  | nil => exact fun acc v h => Or.inl h
  | cons e es ih =>
    intro acc v h
    rw [List.foldl_cons] at h
    rcases ih _ v h with h1 | h2
    · by_cases he : e.1 = k
      · rw [if_pos he] at h1
        exact Or.inr ⟨e, List.mem_cons_self e es, (Option.some.injEq _ _).mp h1⟩
      · rw [if_neg he] at h1
        exact Or.inl h1
    · exact Or.inr (h2.imp fun p hp => ⟨List.mem_cons_of_mem e hp.1, hp.2⟩)

/-- Every value stored in the registry names a language class the factory
resolves, so `Parser.__init__` never keeps a `None` language for a supported
MIME type (this discharges the `Except.ok none` stub in
`extract_comments_and_strings`). -/
theorem registry_factory_total (ty name : String)
    (h : dictGet SUPPORTED_FILE_TYPES ty = some name) :
    (CodeLanguage.factory name).isSome = true := by
  rcases foldl_dictGet_value SUPPORTED_FILE_TYPES ty none name h with h1 | h2
  · exact absurd h1 (by simp)
  · obtain ⟨p, hp, hv⟩ := h2
    subst hv
    simp only [SUPPORTED_FILE_TYPES, List.mem_cons, List.not_mem_nil, or_false] at hp
    rcases hp with rfl | rfl | rfl | rfl | rfl | rfl | rfl | rfl | rfl <;> decide

/-! ## Claim about the registry and the two entry points (C1) -/

/-- C1: looking up any MIME type outside the registry's closed set makes the
strict entry point (`Parser.__init__`, hence `extract`) raise
`CodeLanguageUnsupported`, and the lenient `extract_comments_and_strings`
catches exactly that error and returns `[]`; every MIME type in the set
constructs successfully (no `UnsupportedLanguage`). -/
theorem unsupported_mime_behaviour : ∀ ty : String,
    (ty ∈ supportedMimeTypes → ∃ lg, parserInit ty = Except.ok (some lg)) ∧
    (ty ∉ supportedMimeTypes →
      parserInit ty = Except.error ExtractorError.codeLanguageUnsupported ∧
      ∀ (d : Doc) (inc col : Bool), extract_comments_and_strings d ty inc col = []) := by
  intro ty
  constructor
  · intro hmem
    simp only [supportedMimeTypes, MimeType.C, MimeType.C_PLUS_PLUS, MimeType.JAVA,
      MimeType.HTML, MimeType.XML, MimeType.SGML, MimeType.PYTHON, MimeType.SHELL,
      MimeType.PHP, List.mem_cons, List.not_mem_nil, or_false] at hmem
    rcases hmem with rfl | rfl | rfl | rfl | rfl | rfl | rfl | rfl | rfl
    · exact ⟨Lang.standard, by decide⟩
    · exact ⟨Lang.standard, by decide⟩
    · exact ⟨Lang.standard, by decide⟩
    · exact ⟨Lang.sgml, by decide⟩
    · exact ⟨Lang.xml, by decide⟩
    · exact ⟨Lang.sgml, by decide⟩
    · exact ⟨Lang.python, by decide⟩
    · exact ⟨Lang.shell, by decide⟩
    · exact ⟨Lang.php, by decide⟩
  · intro hnot
    have hdg : dictGet SUPPORTED_FILE_TYPES ty = none := by
      rcases hd : dictGet SUPPORTED_FILE_TYPES ty with _ | name
      · rfl
      · exfalso
        have hne : dictGet SUPPORTED_FILE_TYPES ty ≠ none := by rw [hd]; simp
        rcases foldl_dictGet_mem SUPPORTED_FILE_TYPES ty none hne with h1 | h2
        · exact h1 rfl
        · obtain ⟨p, hp, hk⟩ := h2
          apply hnot
          subst hk
          simp only [SUPPORTED_FILE_TYPES, List.mem_cons, List.not_mem_nil, or_false] at hp
          rcases hp with rfl | rfl | rfl | rfl | rfl | rfl | rfl | rfl | rfl <;> decide
    constructor
    · simp [parserInit, hdg]
    · intro d inc col
      simp [extract_comments_and_strings, parserInit, hdg]

/-- Witness for C1: instantiated at the supported `text/x-python` and the
unsupported `text/plain`. -/
theorem unsupported_mime_behaviour_witness :
    (MimeType.PYTHON ∈ supportedMimeTypes ∧
      ∃ lg, parserInit MimeType.PYTHON = Except.ok (some lg)) ∧
    ("text/plain" ∉ supportedMimeTypes ∧
      parserInit "text/plain" = Except.error ExtractorError.codeLanguageUnsupported ∧
      extract_comments_and_strings ⟨"x", [], []⟩ "text/plain" true true = []) :=
  ⟨⟨by decide, (unsupported_mime_behaviour MimeType.PYTHON).1 (by decide)⟩,
   ⟨by decide, ((unsupported_mime_behaviour "text/plain").2 (by decide)).1,
    ((unsupported_mime_behaviour "text/plain").2 (by decide)).2 ⟨"x", [], []⟩ true true⟩⟩

/-! ## Lemmas and claim for the relevance filter (C2) -/

theorem lrw_foldl_pos : ∀ (l : List String) (t : String),
    l.foldl (fun text literal => if LRW_search literal then text ++ literal ++ "\n" else text) t
      = t ++ concatAll ((l.filter LRW_search).map (fun x => x ++ "\n")) := by
  intro l
  induction l with
  | nil => intro t; simp [concatAll, String.append_empty]
  | cons x xs ih =>
    intro t
    rw [List.foldl_cons]
    by_cases h : LRW_search x
    · rw [if_pos h, ih, List.filter_cons_of_pos h, List.map_cons]
      show t ++ x ++ "\n" ++ _ = _
      rw [concatAll, String.append_assoc, String.append_assoc, String.append_assoc]
    · rw [if_neg h, ih, List.filter_cons_of_neg (by simpa using h)]

theorem lrw_foldl_neg : ∀ (l : List String) (t : String),
    l.foldl (fun text literal => if LRW_search literal then text else text ++ literal ++ "\n") t
      = t ++ concatAll ((l.filter (fun x => !LRW_search x)).map (fun x => x ++ "\n")) := by
  intro l
  induction l with
  | nil => intro t; simp [concatAll, String.append_empty]
  | cons x xs ih =>
    intro t
    rw [List.foldl_cons]
    by_cases h : LRW_search x
    · rw [if_pos h, ih, List.filter_cons_of_neg (by simpa using h)]
    · rw [if_neg h, ih, List.filter_cons_of_pos (by simpa using h), List.map_cons]
      show t ++ x ++ "\n" ++ _ = _
      rw [concatAll, String.append_assoc, String.append_assoc, String.append_assoc]

/-- C2: the relevance filter puts each item into exactly one of the two
output blobs — the license-relevant blob when the case-insensitive pattern
`licen|copyright|\(c\)|public domain` matches, the non-relevant blob
otherwise — appending each matched item in input order followed by one
newline; on `["This is MIT licensed", "foo()", "Copyright 2020"]` the two
blobs are as the claim states. -/
theorem relevance_filter_partition :
    (∀ l : List String, extract_license_related_text l =
      concatAll ((l.filter LRW_search).map (fun x => x ++ "\n"))) ∧
    (∀ l : List String, extract_no_license_related_text l =
      concatAll ((l.filter (fun x => !LRW_search x)).map (fun x => x ++ "\n"))) ∧
    (∀ l : List String, (l.filter LRW_search ++ l.filter (fun x => !LRW_search x)).Perm l) ∧
    extract_license_related_text ["This is MIT licensed", "foo()", "Copyright 2020"] =
      "This is MIT licensed\nCopyright 2020\n" ∧
    extract_no_license_related_text ["This is MIT licensed", "foo()", "Copyright 2020"] =
      "foo()\n" :=
  ⟨fun l => by
      show l.foldl _ "" = _
      rw [lrw_foldl_pos l "", String.empty_append],
   fun l => by
      show l.foldl _ "" = _
      rw [lrw_foldl_neg l "", String.empty_append],
   fun l => List.filter_append_perm LRW_search l,
   by decide, by decide⟩

/-! ## Lemmas about the line lexer -/

theorem commentsOf_append (a b : List Item) :
    commentsOf (a ++ b) = commentsOf a ++ commentsOf b :=
  List.filterMap_append a b _

theorem stringsOf_append (a b : List Item) :
    stringsOf (a ++ b) = stringsOf a ++ stringsOf b :=
  List.filter_append a b

theorem commentsOf_map_comment (cs : List Comment) :
    commentsOf (cs.map Item.comment) = cs := by
  induction cs with
  | nil => rfl
  | cons c rest ih =>
    simp only [List.map_cons, commentsOf, List.filterMap_cons] at ih ⊢
    rw [ih]

theorem stringsOf_map_comment (cs : List Comment) :
    stringsOf (cs.map Item.comment) = [] := by
  induction cs with
  | nil => rfl
  | cons c rest ih =>
    simp only [List.map_cons, stringsOf, List.filter_cons, Item.isComment] at ih ⊢
    simp [ih]

theorem mem_stringsOfLine (p : Profile) (t : String) (n : Nat) :
    ∀ i ∈ stringsOfLine p t n, i.isComment = false := by
  intro i hi
  unfold stringsOfLine at hi
  rw [List.mem_flatMap] at hi
  obtain ⟨q, _, hi⟩ := hi
  rw [List.mem_map] at hi
  obtain ⟨x, _, rfl⟩ := hi
  rfl

theorem commentsOf_eq_nil_of_all_str (l : List Item) (h : ∀ i ∈ l, i.isComment = false) :
    commentsOf l = [] := by
  induction l with
  | nil => rfl
  | cons i rest ih =>
    have hi := h i (List.mem_cons_self i rest)
    cases i with
    | comment c => simp [Item.isComment] at hi
    | str sl =>
      simp only [commentsOf, List.filterMap_cons]
      exact ih fun a ha => h a (List.mem_cons_of_mem _ ha)

theorem commentsOf_stringsOfLine (p : Profile) (t : String) (n : Nat) :
    commentsOf (stringsOfLine p t n) = [] :=
  commentsOf_eq_nil_of_all_str _ (mem_stringsOfLine p t n)

theorem stringsOf_stringsOfLine (p : Profile) (t : String) (n : Nat) :
    stringsOf (stringsOfLine p t n) = stringsOfLine p t n :=
  List.filter_eq_self.mpr fun i hi => by rw [mem_stringsOfLine p t n i hi]; rfl

theorem stringsOfLine_empty (p : Profile) (n : Nat) (t : String) (h : t.data = []) :
    stringsOfLine p t n = [] := by
  unfold stringsOfLine
  rw [h]
  have : ∀ q : Char, findallStrings q [] = [] := fun q => rfl
  induction p.strings with
  | nil => rfl
  | cons q qs ih => simp [this, ih]

theorem step_of_empty (p : Profile) (inc : Bool) (s : LexState) (n : Nat) (raw : String)
    (h : (pyStrip raw).data.isEmpty = true) : step p inc s n raw = s := by
  simp [step, h]

theorem step_of_nonempty (p : Profile) (inc : Bool) (s : LexState) (n : Nat) (raw : String)
    (h : (pyStrip raw).data.isEmpty = false) :
    step p inc s n raw =
      (if inc then
        { stepComment p s n (pyStrip raw) with
          out := (stepComment p s n (pyStrip raw)).out ++ stringsOfLine p (pyStrip raw) n }
      else stepComment p s n (pyStrip raw)) := by
  simp [step, h]

theorem stepComment_out_shape (p : Profile) (s : LexState) (n : Nat) (t : String) :
    ∃ cs : List Comment, (stepComment p s n t).out = s.out ++ cs.map Item.comment := by
  unfold stepComment
  split_ifs
  · exact ⟨[Comment.init [pyStrip (pySplitGet1 p.slcHeader t)] n n], rfl⟩
  · exact ⟨[Comment.init [pyStrip (pySplitGet0 (mlcFooter p) (pySplitGet1 (mlcHeader p) t))]
      n n], rfl⟩
  · exact ⟨[], by simp⟩
  · exact ⟨[], by simp⟩
  · exact ⟨[flushComment (s.buf ++ [(pyStrip (pySplitGet0 (mlcFooter p) t), n)])], rfl⟩
  · exact ⟨[], by simp⟩

theorem buf_nil_of_mlc_start (p : Profile) (b : List (String × Nat)) (t : String)
    (h : is_multi_line_comment_start p b t = true) : b = [] := by
  unfold is_multi_line_comment_start at h
  rcases hm : p.mlc with _ | x
  · rw [hm] at h
    simp at h
  · rw [hm] at h
    obtain ⟨h1, _⟩ := Bool.and_eq_true_iff.mp h
    have h0 : is_currently_multi_line_comment p b = false := by
      cases hc : is_currently_multi_line_comment p b
      · rfl
      · rw [hc] at h1; simp at h1
    unfold is_currently_multi_line_comment at h0
    rw [hm] at h0
    simp only [Option.isSome_some, Bool.true_and] at h0
    have h2 : b.isEmpty = true := by
      cases hbe : b.isEmpty
      · rw [hbe] at h0; simp at h0
      · rfl
    exact List.isEmpty_iff.mp h2

theorem buf_cons_of_currently (p : Profile) (b : List (String × Nat))
    (h : is_currently_multi_line_comment p b = true) : b ≠ [] := by
  unfold is_currently_multi_line_comment at h
  obtain ⟨_, h2⟩ := Bool.and_eq_true_iff.mp h
  intro hb
  subst hb
  simp at h2

theorem currently_of_midst (p : Profile) (b : List (String × Nat)) (t : String)
    (h : is_multi_line_comment_midst p b t = true) :
    is_currently_multi_line_comment p b = true := by
  unfold is_multi_line_comment_midst at h
  rcases hm : p.mlc with _ | x
  · rw [hm] at h; simp at h
  · rw [hm] at h
    obtain ⟨h1, _⟩ := Bool.and_eq_true_iff.mp h
    obtain ⟨h2, _⟩ := Bool.and_eq_true_iff.mp h1
    exact (Bool.and_eq_true_iff.mp h2).1

theorem currently_of_end (p : Profile) (b : List (String × Nat)) (t : String)
    (h : is_multi_line_comment_end p b t = true) :
    is_currently_multi_line_comment p b = true := by
  unfold is_multi_line_comment_end at h
  rcases hm : p.mlc with _ | x
  · rw [hm] at h; simp at h
  · rw [hm] at h
    exact (Bool.and_eq_true_iff.mp h).1

/-! ## String extraction per line (C6) -/

theorem step_strings (p : Profile) (s : LexState) (n : Nat) (raw : String) :
    stringsOf (step p true s n raw).out =
      stringsOf s.out ++ stringsOfLine p (pyStrip raw) n := by
  by_cases he : (pyStrip raw).data.isEmpty = true
  · rw [step_of_empty p true s n raw he,
      stringsOfLine_empty p n (pyStrip raw) (List.isEmpty_iff.mp he), List.append_nil]
  · rw [step_of_nonempty p true s n raw (by simpa using he)]
    obtain ⟨cs, hcs⟩ := stepComment_out_shape p s n (pyStrip raw)
    rw [if_pos rfl]
    show stringsOf ((stepComment p s n (pyStrip raw)).out ++ stringsOfLine p (pyStrip raw) n) = _
    rw [stringsOf_append, hcs, stringsOf_append, stringsOf_map_comment, List.append_nil,
      stringsOf_stringsOfLine]

theorem processLines_strings (p : Profile) :
    ∀ (ls : List (Nat × String)) (s : LexState),
      stringsOf (processLines p true s ls).out =
        stringsOf s.out ++ ls.flatMap (fun pr => stringsOfLine p (pyStrip pr.2) pr.1) := by
  intro ls
  induction ls with
  | nil => intro s; simp [processLines]
  | cons pr rest ih =>
    intro s
    show stringsOf (processLines p true (step p true s pr.1 pr.2) rest).out = _
    rw [ih (step p true s pr.1 pr.2), step_strings p s pr.1 pr.2, List.flatMap_cons,
      List.append_assoc]

/-- C6 counterexample: on the line `"a" x "b"` the code's regex matches
greedily from the first quote to the last, yielding the single spanning
literal `a" x "b` (which itself contains quote characters), while a
non-greedy per-quote-pair reading — the spec's words, modelled by
`specNonGreedyMatches` — would yield the two literals `a` and `b`. -/
theorem string_regex_counterexample :
    stringsOf (baseParse standardProfile "\"a\" x \"b\"" true) =
      [Item.str ⟨"a\" x \"b", 1⟩] ∧
    specNonGreedyMatches (Char.ofNat 34) "\"a\" x \"b\"".data = ["a", "b"] ∧
    ¬(stringsOf (baseParse standardProfile "\"a\" x \"b\"" true)).map Item.toText
        = ["a", "b"] :=
  ⟨by decide, by decide, by decide⟩

/-- C6 amended: when string extraction is requested for a non-markup
profile, every physical line — including lines inside comments; blank lines
trivially contribute no matches — is scanned with one regex per configured
quote character, and one `StringLiteral` carrying the matched text and line
number is emitted per non-overlapping match; but the pattern
`q(.*(?<!\)))q` is *greedy* (each match runs to the rightmost later quote
whose preceding character is not `')'` — the lookbehind in the source
escapes a parenthesis, not a backslash), rather than non-greedy and
escape-aware as claimed.  The concrete conjunct shows a literal being
extracted from a line that sits inside a block comment. -/
theorem string_extraction_per_line :
    (∀ (p : Profile) (content : String),
      stringsOf (baseParse p content true) =
        (numberFrom 1 (pySplitlines content)).flatMap
          (fun pr => stringsOfLine p (pyStrip pr.2) pr.1)) ∧
    findallStrings (Char.ofNat 34) "\"a\" x \"b\"".data = ["a\" x \"b"] ∧
    stringsOf (baseParse standardProfile "/* c\n\"s\"\n*/" true) = [Item.str ⟨"s", 2⟩] := by
  refine ⟨fun p content => ?_, by decide, by decide⟩
  show stringsOf (processLines p true initState (numberFrom 1 (pySplitlines content))).out = _
  rw [processLines_strings p (numberFrom 1 (pySplitlines content)) initState]
  rfl

/-! ## Block-comment interior lines (C7) -/

theorem stepComment_midst_eq (p : Profile) (h : String) (m : Option String) (f : String)
    (s : LexState) (n : Nat) (t : String)
    (hm : p.mlc = some (h, m, f)) (hbuf : s.buf ≠ [])
    (hh : pyStartsWith t h = false)
    (hf : pyEndsWith t f = false)
    (hmid : (m.getD "").data.isEmpty = true ∨ pyStartsWith t (m.getD "") = true) :
    stepComment p s n t = { s with buf := s.buf ++ [(midstText p t, n)] } := by
  have hcur : is_currently_multi_line_comment p s.buf = true := by
    unfold is_currently_multi_line_comment
    rw [hm]
    simp [List.isEmpty_iff, hbuf]
  have hsingle : is_single_line_comment p s.buf t = false := by
    unfold is_single_line_comment
    rw [hcur]
    rfl
  have hblock : is_single_line_comment_block_form p s.buf t = false := by
    unfold is_single_line_comment_block_form
    rw [hm, hcur]
    rfl
  have hstart : is_multi_line_comment_start p s.buf t = false := by
    unfold is_multi_line_comment_start
    rw [hm, hcur]
    rfl
  have hmidst : is_multi_line_comment_midst p s.buf t = true := by
    unfold is_multi_line_comment_midst
    rw [hm]
    show (is_currently_multi_line_comment p s.buf && !pyStartsWith t h && !pyEndsWith t f
      && ((m.getD "").data.isEmpty || pyStartsWith t (m.getD ""))) = true
    rw [hcur, hh, hf]
    rcases hmid with hmid | hmid <;> simp [hmid]
  unfold stepComment
  rw [hsingle, hblock, hstart, hmidst]
  simp

/-- C7 counterexample: for the PHP profile (interior-line token `*`), the
interior line `hello` of a *terminated* block comment is dropped — the midst
predicate additionally requires the line to start with the interior token, so
the emitted body is `["a", ""]` and omits `hello`, refuting the claim. -/
theorem midst_line_counterexample :
    commentsOf (baseParse phpProfile "/** a\nhello\n*/" false) = [⟨["a", ""], 1, 3, true⟩] ∧
    "hello" ∉ (["a", ""] : List String) :=
  ⟨by decide, by decide⟩

/-- C7 amended: a non-blank line inside a block comment that does not start
with the open token and does not end with the close token is pushed onto the
buffer (with the interior prefix token stripped when one is defined) exactly
when, additionally, either no interior token is defined or the line starts
with it; lines failing that extra test are silently dropped. -/
theorem midst_line_pushed (p : Profile) (h : String) (m : Option String) (f : String)
    (inc : Bool) (s : LexState) (n : Nat) (raw : String)
    (hm : p.mlc = some (h, m, f)) (hbuf : s.buf ≠ [])
    (hne : (pyStrip raw).data.isEmpty = false)
    (hh : pyStartsWith (pyStrip raw) h = false)
    (hf : pyEndsWith (pyStrip raw) f = false)
    (hmid : (m.getD "").data.isEmpty = true ∨ pyStartsWith (pyStrip raw) (m.getD "") = true) :
    (step p inc s n raw).buf = s.buf ++ [(midstText p (pyStrip raw), n)] ∧
    (step p inc s n raw).out =
      s.out ++ (if inc then stringsOfLine p (pyStrip raw) n else []) := by
  rw [step_of_nonempty p inc s n raw hne,
    stepComment_midst_eq p h m f s n (pyStrip raw) hm hbuf hh hf hmid]
  cases inc <;> simp

/-- Witness for C7 (amended): the PHP profile pushes the conforming interior
line `* hello` (token stripped) while inside a block comment. -/
theorem midst_line_pushed_witness :
    (step phpProfile false ⟨[], [("a", 1)]⟩ 2 "* hello").buf =
      [("a", 1)] ++ [(midstText phpProfile (pyStrip "* hello"), 2)] ∧
    (step phpProfile false ⟨[], [("a", 1)]⟩ 2 "* hello").out =
      ([] : List Item) ++ (if false then stringsOfLine phpProfile (pyStrip "* hello") 2 else []) :=
  midst_line_pushed phpProfile "/**" (some "*") "*/" false ⟨[], [("a", 1)]⟩ 2 "* hello"
    rfl (by decide) (by decide) (by decide) (by decide) (Or.inr (by decide))

/-! ## Unterminated block comments (C8) -/

theorem stepComment_eq_midst_of_flags (p : Profile) (s : LexState) (n : Nat) (t : String)
    (h1 : is_single_line_comment p s.buf t = false)
    (h2 : is_single_line_comment_block_form p s.buf t = false)
    (h3 : is_multi_line_comment_start p s.buf t = false)
    (h4 : is_multi_line_comment_midst p s.buf t = true) :
    stepComment p s n t = { s with buf := s.buf ++ [(midstText p t, n)] } := by
  unfold stepComment
  rw [h1, h2, h3, h4]
  simp

theorem stepComment_eq_self_of_flags (p : Profile) (s : LexState) (n : Nat) (t : String)
    (h1 : is_single_line_comment p s.buf t = false)
    (h2 : is_single_line_comment_block_form p s.buf t = false)
    (h3 : is_multi_line_comment_start p s.buf t = false)
    (h4 : is_multi_line_comment_midst p s.buf t = false)
    (h5 : is_multi_line_comment_end p s.buf t = false) :
    stepComment p s n t = s := by
  unfold stepComment
  rw [h1, h2, h3, h4, h5]
  simp

theorem step_inside (p : Profile) (h : String) (m : Option String) (f : String)
    (inc : Bool) (s : LexState) (n : Nat) (raw : String)
    (hm : p.mlc = some (h, m, f)) (hbuf : s.buf ≠ [])
    (hf : pyEndsWith (pyStrip raw) f = false) :
    ∃ be oe, (step p inc s n raw).buf = s.buf ++ be ∧
      (step p inc s n raw).out = s.out ++ oe ∧ commentsOf oe = [] := by
  by_cases he : (pyStrip raw).data.isEmpty = true
  · rw [step_of_empty p inc s n raw he]
    exact ⟨[], [], by simp, by simp, rfl⟩
  · rw [step_of_nonempty p inc s n raw (by simpa using he)]
    have hcur : is_currently_multi_line_comment p s.buf = true := by
      unfold is_currently_multi_line_comment
      rw [hm]
      simp [List.isEmpty_iff, hbuf]
    have h1 : is_single_line_comment p s.buf (pyStrip raw) = false := by
      unfold is_single_line_comment
      rw [hcur]
      rfl
    have h2 : is_single_line_comment_block_form p s.buf (pyStrip raw) = false := by
      unfold is_single_line_comment_block_form
      rw [hm, hcur]
      rfl
    have h3 : is_multi_line_comment_start p s.buf (pyStrip raw) = false := by
      unfold is_multi_line_comment_start
      rw [hm, hcur]
      rfl
    have h5 : is_multi_line_comment_end p s.buf (pyStrip raw) = false := by
      unfold is_multi_line_comment_end
      rw [hm]
      show (is_currently_multi_line_comment p s.buf && pyEndsWith (pyStrip raw) f) = false
      rw [hcur, hf]
      rfl
    by_cases h4 : is_multi_line_comment_midst p s.buf (pyStrip raw) = true
    · rw [stepComment_eq_midst_of_flags p s n (pyStrip raw) h1 h2 h3 h4]
      cases inc
      · exact ⟨[(midstText p (pyStrip raw), n)], [], rfl, by simp, rfl⟩
      · refine ⟨[(midstText p (pyStrip raw), n)], stringsOfLine p (pyStrip raw) n, ?_, ?_, ?_⟩
        · simp
        · simp
        · exact commentsOf_stringsOfLine p (pyStrip raw) n
    · rw [stepComment_eq_self_of_flags p s n (pyStrip raw) h1 h2 h3
        (Bool.eq_false_iff.mpr h4) h5]
      cases inc
      · exact ⟨[], [], by simp, by simp, rfl⟩
      · refine ⟨[], stringsOfLine p (pyStrip raw) n, by simp, by simp, ?_⟩
        exact commentsOf_stringsOfLine p (pyStrip raw) n

theorem processLines_inside (p : Profile) (h : String) (m : Option String) (f : String)
    (inc : Bool) (hm : p.mlc = some (h, m, f)) :
    ∀ (ls : List (Nat × String)) (s : LexState), s.buf ≠ [] →
      (∀ pr ∈ ls, pyEndsWith (pyStrip pr.2) f = false) →
      ∃ oe, (processLines p inc s ls).out = s.out ++ oe ∧ commentsOf oe = [] ∧
        (processLines p inc s ls).buf ≠ [] := by
  intro ls
  induction ls with
  | nil =>
    intro s hbuf _
    exact ⟨[], by simp [processLines], rfl, hbuf⟩
  | cons pr rest ih =>
    intro s hbuf hls
    obtain ⟨be, oe1, hb1, ho1, hc1⟩ :=
      step_inside p h m f inc s pr.1 pr.2 hm hbuf (hls pr (List.mem_cons_self pr rest))
    have hbuf1 : (step p inc s pr.1 pr.2).buf ≠ [] := by
      rw [hb1]
      intro hnil
      exact hbuf (List.append_eq_nil.mp hnil).1
    obtain ⟨oe2, ho2, hc2, hb2⟩ :=
      ih (step p inc s pr.1 pr.2) hbuf1 fun q hq => hls q (List.mem_cons_of_mem pr hq)
    refine ⟨oe1 ++ oe2, ?_, ?_, hb2⟩
    · show (processLines p inc (step p inc s pr.1 pr.2) rest).out = _
      rw [ho2, ho1, List.append_assoc]
    · rw [commentsOf_append, hc1, hc2]
      rfl

/-- C8: when the input ends while the lexer is still inside a block comment,
the buffered partial comment is discarded (`baseParse` returns only the
`.out` field of the final state — the non-empty `.buf` proved here is never
emitted), no error is raised (the model is total), and the items emitted
before the unterminated block are returned unchanged: processing the extra
lines `ls2` — none of which ends with the close token — only appends
non-comment items (string literals, when requested) to the output. -/
theorem unterminated_block_discarded (p : Profile) (h : String) (m : Option String)
    (f : String) (inc : Bool) (ls1 ls2 : List (Nat × String))
    (hm : p.mlc = some (h, m, f))
    (hbuf : (processLines p inc initState ls1).buf ≠ [])
    (hls2 : ∀ pr ∈ ls2, pyEndsWith (pyStrip pr.2) f = false) :
    ∃ extra, (processLines p inc initState (ls1 ++ ls2)).out =
        (processLines p inc initState ls1).out ++ extra ∧
      commentsOf extra = [] ∧
      (processLines p inc initState (ls1 ++ ls2)).buf ≠ [] := by
  have happ : processLines p inc initState (ls1 ++ ls2) =
      processLines p inc (processLines p inc initState ls1) ls2 := by
    unfold processLines
    rw [List.foldl_append]
  rw [happ]
  exact processLines_inside p h m f inc hm ls2 (processLines p inc initState ls1) hbuf hls2

/-- Witness for C8: a standard-profile input whose first line opens a block
comment that the remaining line never closes. -/
theorem unterminated_block_discarded_witness :
    ∃ extra,
      (processLines standardProfile true initState
          ([(1, "/* a")] ++ [(2, "b")])).out =
        (processLines standardProfile true initState [(1, "/* a")]).out ++ extra ∧
      commentsOf extra = [] ∧
      (processLines standardProfile true initState ([(1, "/* a")] ++ [(2, "b")])).buf ≠ [] :=
  unterminated_block_discarded standardProfile "/*" none "*/" true
    [(1, "/* a")] [(2, "b")] rfl (by decide) (by decide)

/-! ## Span invariant of emitted comments (C9) -/

theorem bufOk_mono (n n' : Nat) (b : List (String × Nat)) (h : bufOk n b) (hle : n ≤ n') :
    bufOk n' b := by
  cases b with
  | nil => trivial
  | cons e rest => exact ⟨h.1, Nat.le_trans h.2 hle⟩

theorem good_out_append (outl : List Item) (c : Comment)
    (hout : ∀ x ∈ commentsOf outl, goodComment x) (hc : goodComment c) :
    ∀ x ∈ commentsOf (outl ++ [Item.comment c]), goodComment x := by
  intro x hx
  rw [commentsOf_append] at hx
  rcases List.mem_append.mp hx with hx | hx
  · exact hout x hx
  · have hxc : x = c := by simpa [commentsOf] using hx
    subst hxc
    exact hc

theorem goodComment_single (b : String) (n : Nat) (hn : 1 ≤ n) :
    goodComment (Comment.init [b] n n) :=
  ⟨hn, Nat.le_refl n, by
    show ([b] : List String).length ≤ n - n + 1
    simp only [List.length_singleton]
    omega⟩

theorem flushComment_good (e : String × Nat) (rest : List (String × Nat)) (ct : String)
    (n : Nat) (h1 : 1 ≤ e.2) (h2 : e.2 + rest.length + 1 ≤ n) :
    goodComment (flushComment ((e :: rest) ++ [(ct, n)])) := by
  unfold flushComment goodComment Comment.init
  simp only [List.map_append, List.map_cons, List.map_nil, List.cons_append,
    List.getLastD_cons, List.getLastD_concat, List.headD_cons, List.length_append,
    List.length_cons, List.length_map, List.length_nil]
  omega

theorem stepComment_good (p : Profile) (s : LexState) (n : Nat) (t : String)
    (hn : 1 ≤ n) (hout : ∀ c ∈ commentsOf s.out, goodComment c) (hbuf : bufOk n s.buf) :
    (∀ c ∈ commentsOf (stepComment p s n t).out, goodComment c) ∧
    bufOk (n + 1) (stepComment p s n t).buf := by
  obtain ⟨outl, buf⟩ := s
  unfold stepComment
  split_ifs with h1 h2 h3 h4 h5
  · exact ⟨good_out_append outl _ hout (goodComment_single _ n hn),
      bufOk_mono n (n + 1) buf hbuf (Nat.le_succ n)⟩
  · exact ⟨good_out_append outl _ hout (goodComment_single _ n hn),
      bufOk_mono n (n + 1) buf hbuf (Nat.le_succ n)⟩
  · have hnil : buf = [] := buf_nil_of_mlc_start p buf t h3
    subst hnil
    refine ⟨hout, ⟨hn, ?_⟩⟩
    simp only [List.length_nil]
    omega
  · have hne : buf ≠ [] := buf_cons_of_currently p buf (currently_of_midst p buf t h4)
    cases buf with
    | nil => exact absurd rfl hne
    | cons e rest =>
      have hb2 : e.2 + rest.length + 1 ≤ n := hbuf.2
      refine ⟨hout, ?_⟩
      show 1 ≤ e.2 ∧ e.2 + (rest ++ [(midstText p t, n)]).length + 1 ≤ n + 1
      refine ⟨hbuf.1, ?_⟩
      simp only [List.length_append, List.length_cons, List.length_nil]
      omega
  · have hne : buf ≠ [] := buf_cons_of_currently p buf (currently_of_end p buf t h5)
    cases buf with
    | nil => exact absurd rfl hne
    | cons e rest =>
      exact ⟨good_out_append outl _ hout (flushComment_good e rest _ n hbuf.1 hbuf.2),
        trivial⟩
  · exact ⟨hout, bufOk_mono n (n + 1) buf hbuf (Nat.le_succ n)⟩

theorem step_good (p : Profile) (inc : Bool) (s : LexState) (n : Nat) (raw : String)
    (hn : 1 ≤ n) (hout : ∀ c ∈ commentsOf s.out, goodComment c) (hbuf : bufOk n s.buf) :
    (∀ c ∈ commentsOf (step p inc s n raw).out, goodComment c) ∧
    bufOk (n + 1) (step p inc s n raw).buf := by
  by_cases he : (pyStrip raw).data.isEmpty = true
  · rw [step_of_empty p inc s n raw he]
    exact ⟨hout, bufOk_mono n (n + 1) s.buf hbuf (Nat.le_succ n)⟩
  · rw [step_of_nonempty p inc s n raw (by simpa using he)]
    obtain ⟨hc, hb⟩ := stepComment_good p s n (pyStrip raw) hn hout hbuf
    cases inc
    · exact ⟨hc, hb⟩
    · refine ⟨?_, hb⟩
      intro c hcm
      rw [if_pos rfl] at hcm
      have hcm2 : c ∈ commentsOf ((stepComment p s n (pyStrip raw)).out ++
          stringsOfLine p (pyStrip raw) n) := hcm
      rw [commentsOf_append, commentsOf_stringsOfLine, List.append_nil] at hcm2
      exact hc c hcm2

theorem processLines_good (p : Profile) (inc : Bool) :
    ∀ (lines : List String) (k : Nat) (s : LexState), 1 ≤ k →
      (∀ c ∈ commentsOf s.out, goodComment c) → bufOk k s.buf →
      ∀ c ∈ commentsOf (processLines p inc s (numberFrom k lines)).out, goodComment c := by
  intro lines
  induction lines with
  | nil =>
    intro k s _ hout _
    simpa [processLines, numberFrom] using hout
  | cons l ls ih =>
    intro k s hk hout hbuf
    show ∀ c ∈ commentsOf
      (processLines p inc (step p inc s k l) (numberFrom (k + 1) ls)).out, goodComment c
    obtain ⟨h1, h2⟩ := step_good p inc s k l hk hout hbuf
    exact ih (k + 1) (step p inc s k l) (by omega) h1 h2

/-- C9 counterexample: the blank second line of the block comment
`/* a`, ``, `b */` is skipped before classification, so the emitted
`Comment` spans lines 1–3 but carries only 2 body lines — the body length is
not `end_line - start_line + 1`, refuting the claim. -/
theorem comment_span_counterexample :
    commentsOf (baseParse standardProfile "/* a\n\nb */" false) = [⟨["a", "b"], 1, 3, true⟩] ∧
    ¬(["a", "b"] : List String).length = 3 - 1 + 1 :=
  ⟨by decide, by decide⟩

/-- C9 amended: every `Comment` the line lexer emits has a 1-based span with
`start_line <= end_line`, and its body length is at most
`end_line - start_line + 1` (it can be smaller: blank lines inside a block
comment, and interior lines rejected by the midst predicate, are absorbed
into the span without contributing body lines). -/
theorem lexer_comment_invariant : ∀ (p : Profile) (inc : Bool) (content : String),
    ∀ c ∈ commentsOf (baseParse p content inc),
      1 ≤ c.start_line ∧ c.start_line ≤ c.end_line ∧
        c.body.length ≤ c.end_line - c.start_line + 1 := by
  intro p inc content c hc
  refine processLines_good p inc (pySplitlines content) 1 initState (Nat.le_refl 1)
    ?_ trivial c hc
  intro x hx
  simp [initState, commentsOf] at hx

/-- Witness for C9 (amended): the invariant holds for the comment produced
from `/* a`, blank, `b */`. -/
theorem lexer_comment_invariant_witness :
    (⟨["a", "b"], 1, 3, true⟩ : Comment) ∈
      commentsOf (baseParse standardProfile "/* a\n\nb */" false) ∧
    (1 ≤ (⟨["a", "b"], 1, 3, true⟩ : Comment).start_line ∧
      (⟨["a", "b"], 1, 3, true⟩ : Comment).start_line ≤
        (⟨["a", "b"], 1, 3, true⟩ : Comment).end_line ∧
      (⟨["a", "b"], 1, 3, true⟩ : Comment).body.length ≤
        (⟨["a", "b"], 1, 3, true⟩ : Comment).end_line -
          (⟨["a", "b"], 1, 3, true⟩ : Comment).start_line + 1) :=
  ⟨by decide,
   lexer_comment_invariant standardProfile false "/* a\n\nb */" ⟨["a", "b"], 1, 3, true⟩
     (by decide)⟩

/-! ## Markup comments (C10) -/

theorem collapseGo_zero : ∀ (l : List Comment) (c : Comment),
    (∀ x ∈ l, x.start_line = 0) → collapseGo c l = [l.foldl Comment.append c] := by
  intro l
  induction l with
  | nil => intro c _; rfl
  | cons nc rest ih =>
    intro c hz
    have h0 : nc.start_line = 0 := hz nc (List.mem_cons_self nc rest)
    have hle : nc.start_line - c.end_line ≤ 1 := by rw [h0]; omega
    rw [collapseGo_cons_of_le c nc rest hle, List.foldl_cons]
    exact ih (c.append nc) fun x hx => hz x (List.mem_cons_of_mem nc hx)

theorem map_comment_parse (l : List String) :
    l.map (fun b => Item.comment (Comment.parse b)) =
      (l.map Comment.parse).map Item.comment := by
  rw [List.map_map]
  rfl

theorem commentsOf_map_strlit (l : List String) :
    commentsOf (l.map (fun t => Item.str ⟨t, 0⟩)) = [] :=
  commentsOf_eq_nil_of_all_str _ (by
    intro i hi
    rw [List.mem_map] at hi
    obtain ⟨t, _, rfl⟩ := hi
    rfl)

theorem commentsOf_sgmlParse (d : Doc) (inc : Bool) :
    commentsOf (sgmlParse d inc) = d.soupComments.map Comment.parse := by
  unfold sgmlParse
  cases inc
  · show commentsOf (d.soupComments.map fun b => Item.comment (Comment.parse b)) = _
    rw [map_comment_parse, commentsOf_map_comment]
  · show commentsOf ((d.soupComments.map fun b => Item.comment (Comment.parse b)) ++
      d.soupStrings.map fun t => Item.str ⟨t, 0⟩) = _
    rw [commentsOf_append, map_comment_parse, commentsOf_map_comment,
      commentsOf_map_strlit, List.append_nil]

/-- C10: markup (HTML/XML/SGML) parsing turns every comment node into a
`Comment` with `start_line = end_line = 0`; under collapsing the merge test
`0 - end <= 1` always succeeds, so all markup comments merge into one
`Comment` whose body concatenates the nodes in document order, and the item
sequence behind the returned strings contains at most one comment. -/
theorem markup_comments_collapse : ∀ (d : Doc) (inc : Bool),
    commentsOf (sgmlParse d inc) = d.soupComments.map Comment.parse ∧
    (∀ c ∈ commentsOf (sgmlParse d inc), c.start_line = 0 ∧ c.end_line = 0) ∧
    (do_collapse_singleline_comments (commentsOf (sgmlParse d inc))).length ≤ 1 ∧
    ((recombineAndSort (sgmlParse d inc)).filter Item.isComment).length ≤ 1 ∧
    (∀ b rest, d.soupComments = b :: rest →
      do_collapse_singleline_comments (commentsOf (sgmlParse d inc)) =
        [(rest.map Comment.parse).foldl Comment.append (Comment.parse b)]) ∧
    extract_comments_and_strings d MimeType.HTML inc true =
      (recombineAndSort (sgmlParse d inc)).map Item.toText ∧
    extract_comments_and_strings d MimeType.XML inc true =
      (recombineAndSort (sgmlParse d inc)).map Item.toText := by
  intro d inc
  have h1 := commentsOf_sgmlParse d inc
  have h5 : ∀ b rest, d.soupComments = b :: rest →
      do_collapse_singleline_comments (commentsOf (sgmlParse d inc)) =
        [(rest.map Comment.parse).foldl Comment.append (Comment.parse b)] := by
    intro b rest hbr
    rw [h1, hbr, List.map_cons]
    show collapseGo (Comment.parse b) (rest.map Comment.parse) = _
    refine collapseGo_zero (rest.map Comment.parse) (Comment.parse b) ?_
    intro x hx
    rw [List.mem_map] at hx
    obtain ⟨t, _, rfl⟩ := hx
    rfl
  have h3 : (do_collapse_singleline_comments (commentsOf (sgmlParse d inc))).length ≤ 1 := by
    rcases hsc : d.soupComments with _ | ⟨b, rest⟩
    · rw [h1, hsc]
      simp [do_collapse_singleline_comments]
    · rw [h5 b rest hsc]
      simp
  have h4 : ((recombineAndSort (sgmlParse d inc)).filter Item.isComment).length ≤ 1 := by
    have hperm := (pySortByLastLine_perm
      (stringsOf (sgmlParse d inc) ++
        (do_collapse_singleline_comments (commentsOf (sgmlParse d inc))).map
          Item.comment)).filter Item.isComment
    have hlen := hperm.length_eq
    have hnil : (stringsOf (sgmlParse d inc)).filter Item.isComment = [] := by
      rw [List.filter_eq_nil_iff]
      intro a ha
      have := List.mem_filter.mp ha
      simp only [Bool.not_eq_true'] at this
      simp [this.2]
    have hall : ((do_collapse_singleline_comments
        (commentsOf (sgmlParse d inc))).map Item.comment).filter Item.isComment =
        (do_collapse_singleline_comments (commentsOf (sgmlParse d inc))).map
          Item.comment := by
      refine List.filter_eq_self.mpr ?_
      intro a ha
      rw [List.mem_map] at ha
      obtain ⟨c, _, rfl⟩ := ha
      rfl
    show ((pySortByLastLine _).filter Item.isComment).length ≤ 1
    rw [hlen, List.filter_append, hnil, hall, List.nil_append, List.length_map]
    exact h3
  have hhtml : extract_comments_and_strings d MimeType.HTML inc true =
      (recombineAndSort (sgmlParse d inc)).map Item.toText := by
    have hp : parserInit MimeType.HTML = Except.ok (some Lang.sgml) := by decide
    unfold extract_comments_and_strings
    rw [hp]
    rfl
  have hxml : extract_comments_and_strings d MimeType.XML inc true =
      (recombineAndSort (sgmlParse d inc)).map Item.toText := by
    have hp : parserInit MimeType.XML = Except.ok (some Lang.xml) := by decide
    unfold extract_comments_and_strings
    rw [hp]
    rfl
  refine ⟨h1, ?_, h3, h4, h5, hhtml, hxml⟩
  intro c hc
  rw [h1, List.mem_map] at hc
  obtain ⟨t, _, rfl⟩ := hc
  exact ⟨rfl, rfl⟩

/-- Witness for C10: two comment nodes `x`, `y` merge into the single folded
comment. -/
theorem markup_comments_collapse_witness :
    do_collapse_singleline_comments
        (commentsOf (sgmlParse ⟨"", ["x", "y"], ["s"]⟩ true)) =
      [((["y"] : List String).map Comment.parse).foldl Comment.append (Comment.parse "x")] :=
  (markup_comments_collapse ⟨"", ["x", "y"], ["s"]⟩ true).2.2.2.2.1 "x" ["y"] rfl

end Rigel
